import Mathlib

/-!
Verification of the `bout` transcription pipeline.

Shallow embedding of the data model and operations of the repository:
the chunk planner (`bout/audio/chunker.py`), the chunk merger
(`bout/transcription/merger.py`), the transcription worker
(`bout/transcription/engine.py`), the checkpoint store
(`bout/state/manager.py`) and the resume path of the orchestrator
(`bout/pipeline/orchestrator.py`).  Machine floats of the source are
modelled as rationals; wall-clock timestamps as natural-number ticks;
files on disk as association lists.
-/

attribute [local semireducible] Rat.add Rat.sub Rat.mul Rat.inv

namespace Bout

/-- Job lifecycle states, from `core/types.py` (`JobStatus`). -/
inductive JobStatus
  | pending
  | extracting
  | chunking
  | transcribing
  | merging
  | diarizing
  | generating
  | completed
  | failed
  | cancelled
deriving DecidableEq, Repr

/-- Chunk processing states, from `core/types.py` (`ChunkStatus`). -/
inductive ChunkStatus
  | pending
  | processing
  | completed
  | failed
deriving DecidableEq, Repr

/-- A segment of transcribed text with timing, from `core/types.py`
(`TranscriptionSegment`). -/
structure TranscriptionSegment where
  start : ℚ
  stop : ℚ
  text : String
  speaker : Option String := none
deriving DecidableEq, Repr

/-- Audio chunk information, from `core/types.py` (`Chunk`).
`completed_at` is a tick instead of a datetime. -/
structure Chunk where
  index : ℕ
  start_time : ℚ
  end_time : ℚ
  overlap_start : ℚ
  file_path : Option String := none
  status : ChunkStatus := ChunkStatus.pending
  text : Option String := none
  segments : List TranscriptionSegment := []
  completed_at : Option ℕ := none
  error : Option String := none
deriving DecidableEq, Repr

/-- Transcription job information, from `core/types.py` (`Job`).
Timestamps are ticks; paths are strings. -/
structure Job where
  id : String
  video_name : String := ""
  created_at : ℕ := 0
  updated_at : ℕ := 0
  duration_seconds : ℚ := 0
  status : JobStatus := JobStatus.pending
  error : Option String := none
  audio_path : Option String := none
  chunks : List Chunk := []
  output_path : Option String := none
  transcription_text : Option String := none
  segments : List TranscriptionSegment := []
deriving DecidableEq, Repr

/-! ## Chunk planner (`audio/chunker.py`, `AudioChunker.calculate_chunks`) -/

/-- The `chunks[-1].end_time = duration` assignment before the `break`
(chunker.py line 85): extend the last planned chunk to the full duration. -/
def extendLast (acc : List Chunk) (duration : ℚ) : List Chunk :=
  match acc.getLast? with
  | none => acc
  | some c => acc.dropLast ++ [{ c with end_time := duration }]

/-- The `while start_time < duration` loop of `calculate_chunks`
(chunker.py lines 78-100), with explicit fuel.  Each iteration either
appends a chunk of length `min(chunk_duration, remaining)` and advances
`start_time` by `chunk_duration - overlap`, or (when the remaining audio
is shorter than `min_chunk` and at least one chunk exists) extends the
previous chunk to the end and stops. -/
def calcLoop (cd ov mc : ℤ) (duration : ℚ) :
    ℕ → ℚ → ℕ → List Chunk → List Chunk
  | 0, _, _, acc => acc
  | fuel + 1, start_time, index, acc =>
    if start_time < duration then
      if duration - start_time < (mc : ℚ) ∧ 0 < index then
        extendLast acc duration
      else
        calcLoop cd ov mc duration fuel (start_time + ((cd : ℚ) - (ov : ℚ)))
          (index + 1)
          (acc ++ [{ index := index
                     start_time := start_time
                     end_time := min (start_time + (cd : ℚ)) duration
                     overlap_start := if 0 < index then (ov : ℚ) else 0 }])
    else acc

/-- `AudioChunker.calculate_chunks` (chunker.py lines 51-103).
Parameters `cd`, `ov`, `mc` are the constructor arguments
`chunk_duration`, `overlap`, `min_chunk` (integers in the source).
The fuel bound `⌈duration⌉ + 1` strictly dominates the number of loop
iterations whenever `overlap < chunk_duration`. -/
def calculate_chunks (cd ov mc : ℤ) (duration : ℚ) : List Chunk :=
  if duration ≤ 0 then []
  else if duration ≤ (cd : ℚ) then
    [{ index := 0, start_time := 0, end_time := duration, overlap_start := 0 }]
  else calcLoop cd ov mc duration (⌈duration⌉.toNat + 1) 0 0 []

/-! ## Chunk merger (`transcription/merger.py`, `ChunkMerger`)

Python's `sorted`/`list.sort` is a stable sort by the given key; it is
modelled by Mathlib's stable `List.insertionSort`, which computes the same
list as any other stable sort by the same key. -/

/-- Merger configuration (`ChunkMerger.__init__`). -/
structure ChunkMerger where
  overlap_seconds : ℚ := 10
deriving DecidableEq, Repr

/-- `ChunkMerger._filter_segments_first_chunk` (merger.py lines 92-111):
keep segments ending before `cutoff = end_time - overlap_seconds`, and
cutoff-crossing segments whose midpoint is before the cutoff. -/
def filter_segments_first_chunk (m : ChunkMerger) (chunk : Chunk) :
    List TranscriptionSegment :=
  let cutoff := chunk.end_time - m.overlap_seconds
  chunk.segments.filter fun seg =>
    if seg.stop ≤ cutoff then true
    else if seg.start < cutoff then decide ((seg.start + seg.stop) / 2 < cutoff)
    else false

/-- `ChunkMerger._filter_segments_last_chunk` (merger.py lines 113-133):
keep segments starting after `skip_until = start_time + overlap_start`, and
boundary-crossing segments whose midpoint is at or after it. -/
def filter_segments_last_chunk (m : ChunkMerger) (chunk : Chunk) :
    List TranscriptionSegment :=
  let _ := m
  let skip_until := chunk.start_time + chunk.overlap_start
  chunk.segments.filter fun seg =>
    if skip_until ≤ seg.start then true
    else if skip_until < seg.stop then decide (skip_until ≤ (seg.start + seg.stop) / 2)
    else false

/-- `ChunkMerger._filter_segments_middle_chunk` (merger.py lines 135-155):
keep segments inside `[skip_until, cutoff]`, and segments whose midpoint
lies in that window. -/
def filter_segments_middle_chunk (m : ChunkMerger) (chunk : Chunk) :
    List TranscriptionSegment :=
  let skip_until := chunk.start_time + chunk.overlap_start
  let cutoff := chunk.end_time - m.overlap_seconds
  chunk.segments.filter fun seg =>
    let midpoint := (seg.start + seg.stop) / 2
    if skip_until ≤ seg.start ∧ seg.stop ≤ cutoff then true
    else decide (skip_until ≤ midpoint ∧ midpoint ≤ cutoff)

/-- Helper for `pySplit`: scan the characters, accumulating the current
word in reverse; whitespace closes a word, and only non-empty words are
kept. -/
def pyWordsAux : List Char → List Char → List String
  | [], [] => []
  | [], w => [String.mk w.reverse]
  | c :: cs, w =>
    if c.isWhitespace then
      match w with
      | [] => pyWordsAux cs []
      | _ => String.mk w.reverse :: pyWordsAux cs []
    else pyWordsAux cs (c :: w)

/-- Python `str.split()` (no argument): split on whitespace runs, no empty
parts. -/
def pySplit (s : String) : List String :=
  pyWordsAux s.data []

/-- Python `" ".join(s.split())` — whitespace normalization
(merger.py line 86). -/
def normalizeSpace (s : String) : String :=
  " ".intercalate (pySplit s)

/-- The `for i, chunk in enumerate(completed)` dispatch of `merge_chunks`
(merger.py lines 64-77): first / last / middle filtering per position. -/
def mergePieces (m : ChunkMerger) (n : ℕ) : ℕ → List Chunk →
    List (List TranscriptionSegment)
  | _, [] => []
  | i, c :: rest =>
    (if i = 0 then filter_segments_first_chunk m c
     else if i = n - 1 then filter_segments_last_chunk m c
     else filter_segments_middle_chunk m c) :: mergePieces m n (i + 1) rest

/-- `ChunkMerger.merge_chunks` (merger.py lines 34-90): sort by index,
keep chunks whose `text` is not `None`, filter each chunk's segments by
position, sort all kept segments by start time, and join the text parts
with single spaces. -/
instance : Inhabited Chunk :=
  ⟨{ index := 0, start_time := 0, end_time := 0, overlap_start := 0 }⟩

def merge_chunks (m : ChunkMerger) (chunks : List Chunk) :
    String × List TranscriptionSegment :=
  if chunks = [] then ("", [])
  else
    let sorted := List.insertionSort (fun a b : Chunk => a.index ≤ b.index) chunks
    let completed := sorted.filter (fun c => c.text ≠ none)
    if completed = [] then ("", [])
    else if completed.length = 1 then
      (completed.headI.text.getD "", completed.headI.segments)
    else
      let pieces := mergePieces m completed.length 0 completed
      let all_segments := pieces.flatten
      let full_text_parts :=
        pieces.map (fun segs => " ".intercalate (segs.map TranscriptionSegment.text))
      let sorted_segments :=
        List.insertionSort (fun a b : TranscriptionSegment => a.start ≤ b.start)
          all_segments
      (normalizeSpace (" ".intercalate full_text_parts), sorted_segments)

/-! ## Transcription worker (`transcription/engine.py`, `TranscriptionEngine`)

The speech-recognition model is an external collaborator; one model call
is abstracted as a `ModelOutcome`: a result dictionary, an out-of-memory
`RuntimeError`, another `RuntimeError`, or an exception of a different
class (only `RuntimeError` is caught by the per-chunk retry loop). -/

/-- The model's result dictionary: `result["segments"]` as
`(start, end, text)` triples and `result["text"]`. -/
structure ModelResult where
  segments : List (ℚ × ℚ × String) := []
  text : String := ""
deriving DecidableEq, Repr

/-- One model invocation, as observed by the caller's `try/except`. -/
inductive ModelOutcome
  | ok (result : ModelResult)
  | oom (msg : String)
  | runtimeErr (msg : String)
  | otherErr (msg : String)
deriving DecidableEq, Repr

/-- Python `str.strip()`: drop leading and trailing whitespace. -/
def pyStrip (s : String) : String :=
  String.mk ((s.data.dropWhile Char.isWhitespace).reverse.dropWhile
    Char.isWhitespace).reverse

/-- Segment extraction of `transcribe_chunk` (engine.py lines 136-147):
rebase each model segment to original-audio time by adding
`chunk.start_time`, and strip the text.  Every model segment is kept. -/
def rebaseSegments (chunk : Chunk) (result : ModelResult) :
    List TranscriptionSegment :=
  result.segments.map fun s =>
    { start := chunk.start_time + s.1
      stop := chunk.start_time + s.2.1
      text := pyStrip s.2.2 }

/-- The successful-attempt body of `transcribe_chunk`
(engine.py lines 136-157). -/
def transcribe_chunk_success (chunk : Chunk) (result : ModelResult) (now : ℕ) :
    Chunk :=
  { chunk with
      text := some (pyStrip result.text)
      segments := rebaseSegments chunk result
      status := ChunkStatus.completed
      completed_at := some now }

/-- The successful body of `_transcribe_on_cpu` (engine.py lines 203-228):
the same rebasing and trimming as the GPU path. -/
def transcribe_on_cpu_success (chunk : Chunk) (result : ModelResult) (now : ℕ) :
    Chunk :=
  { chunk with
      text := some (pyStrip result.text)
      segments := rebaseSegments chunk result
      status := ChunkStatus.completed
      completed_at := some now }

/-- `TranscriptionEngine._transcribe_on_cpu` (engine.py lines 177-233):
a bare `except Exception` catches every error, marks the chunk `FAILED`
with the error message, and returns the chunk — nothing is raised. -/
def transcribe_on_cpu (chunk : Chunk) (outcome : ModelOutcome) (now : ℕ) :
    Chunk :=
  match outcome with
  | ModelOutcome.ok result => transcribe_on_cpu_success chunk result now
  | ModelOutcome.oom msg =>
    { chunk with status := ChunkStatus.failed, error := some msg }
  | ModelOutcome.runtimeErr msg =>
    { chunk with status := ChunkStatus.failed, error := some msg }
  | ModelOutcome.otherErr msg =>
    { chunk with status := ChunkStatus.failed, error := some msg }

/-- What a call to `transcribe_chunk` does, seen from the caller: it
returns a chunk or raises one of the typed errors. -/
inductive TranscribeOutcome
  | returned (chunk : Chunk)
  | raisedTranscriptionError (msg : String)
  | raisedOutOfMemoryError
  | raisedOther (msg : String)
deriving DecidableEq, Repr

/-- The `for attempt in range(max_retries)` retry loop of
`transcribe_chunk` (engine.py lines 124-175).  `attempts n` is the model
outcome of attempt `n`; the fuel argument counts the remaining attempts.
On OOM at the final attempt the worker falls back to CPU unless already
there; a non-OOM `RuntimeError` raises `TranscriptionError` at once; an
exception of any other class propagates uncaught.  Falling out of the
loop (only possible with `max_retries = 0`) returns the chunk marked
`FAILED` with "Max retries exceeded". -/
def transcribeFrom (device : String) (chunk : Chunk)
    (attempts : ℕ → ModelOutcome) (cpuOutcome : ModelOutcome)
    (max_retries now : ℕ) : ℕ → ℕ → TranscribeOutcome
  | 0, _ => TranscribeOutcome.returned
      { chunk with status := ChunkStatus.failed, error := some "Max retries exceeded" }
  | fuel + 1, attempt =>
    match attempts attempt with
    | ModelOutcome.ok result =>
      TranscribeOutcome.returned (transcribe_chunk_success chunk result now)
    | ModelOutcome.oom _ =>
      if attempt = max_retries - 1 then
        if device ≠ "cpu" then
          TranscribeOutcome.returned (transcribe_on_cpu chunk cpuOutcome now)
        else TranscribeOutcome.raisedOutOfMemoryError
      else transcribeFrom device chunk attempts cpuOutcome max_retries now fuel (attempt + 1)
    | ModelOutcome.runtimeErr msg =>
      TranscribeOutcome.raisedTranscriptionError
        ("Chunk " ++ toString chunk.index ++ ": " ++ msg)
    | ModelOutcome.otherErr msg => TranscribeOutcome.raisedOther msg

/-- `TranscriptionEngine.transcribe_chunk` (engine.py lines 99-175),
including the missing-file guard at the top. -/
def transcribe_chunk (device : String) (chunk : Chunk)
    (attempts : ℕ → ModelOutcome) (cpuOutcome : ModelOutcome)
    (max_retries now : ℕ) : TranscribeOutcome :=
  if chunk.file_path = none then
    TranscribeOutcome.raisedTranscriptionError "Chunk file not found"
  else transcribeFrom device chunk attempts cpuOutcome max_retries now max_retries 0

/-- Observable events of `transcribe_all_chunks`
(engine.py lines 235-279). -/
inductive TEvent
  | transcribeStart (index : ℕ)
  | checkpoint (index : ℕ)
  | progress (completed total : ℕ)
  | memCleanup
  | raisedStop
deriving DecidableEq, Repr

/-- The event trace of the `for chunk in chunks` loop of
`transcribe_all_chunks` (engine.py lines 257-277).  `f` is the per-chunk
call to `transcribe_chunk`; a raised error ends the trace.  A chunk
already `COMPLETED` is skipped with only a progress report; otherwise the
chunk is transcribed, the checkpoint callback runs, then the progress
callback, then the memory cleanup. -/
def transcribeAllTrace (f : Chunk → TranscribeOutcome) (total : ℕ) :
    List Chunk → ℕ → List TEvent
  | [], _ => []
  | c :: rest, completed =>
    if c.status = ChunkStatus.completed then
      TEvent.progress (completed + 1) total ::
        transcribeAllTrace f total rest (completed + 1)
    else
      TEvent.transcribeStart c.index ::
        match f c with
        | TranscribeOutcome.returned c2 =>
          TEvent.checkpoint c2.index :: TEvent.progress (completed + 1) total ::
            TEvent.memCleanup :: transcribeAllTrace f total rest (completed + 1)
        | _ => [TEvent.raisedStop]

/-- `TranscriptionEngine.transcribe_all_chunks` (engine.py lines 235-279)
as its event trace, with `total = len(chunks)`. -/
def transcribe_all_chunks_trace (f : Chunk → TranscribeOutcome)
    (chunks : List Chunk) : List TEvent :=
  transcribeAllTrace f chunks.length chunks 0

/-! ## Checkpoint store (`state/manager.py`, `StateManager`)

The `jobs/` directory is an association list from file stem to file.  A
file carries its modification time and its parsed content; `Except.error`
stands for a record that `json.load` / `JobState.from_dict` cannot parse
(torn or corrupt), which raises inside the `try` of `load_job`. -/

instance {ε α : Type} [DecidableEq ε] [DecidableEq α] :
    DecidableEq (Except ε α) := fun a b =>
  match a, b with
  | Except.ok x, Except.ok y =>
    if h : x = y then isTrue (by rw [h]) else
      isFalse (fun hc => h (by cases hc; rfl))
  | Except.ok _, Except.error _ => isFalse (by intro hc; cases hc)
  | Except.error _, Except.ok _ => isFalse (by intro hc; cases hc)
  | Except.error x, Except.error y =>
    if h : x = y then isTrue (by rw [h]) else
      isFalse (fun hc => h (by cases hc; rfl))

/-- One persisted `jobs/<id>.json` file. -/
structure JobFile where
  mtime : ℕ
  content : Except String Job
deriving DecidableEq, Repr

/-- The `jobs/` directory. -/
abbrev Store := List (String × JobFile)

/-- File lookup by stem. -/
def getFile (store : Store) (job_id : String) : Option JobFile :=
  (store.find? (fun e => decide (e.1 = job_id))).map (fun e => e.2)

/-- Create or overwrite one file. -/
def setFile : Store → String → JobFile → Store
  | [], job_id, f => [(job_id, f)]
  | e :: rest, job_id, f =>
    if e.1 = job_id then (job_id, f) :: rest else e :: setFile rest job_id f

/-- `StateManager.save_job` (manager.py lines 46-64): stamp `updated_at`
via `job.update()`, serialize, write `jobs/<id>.json` in place.  `now`
becomes both the new `updated_at` and the file's mtime. -/
def save_job (store : Store) (job : Job) (now : ℕ) : Store :=
  setFile store job.id { mtime := now, content := Except.ok { job with updated_at := now } }

/-- `StateManager.load_job` (manager.py lines 66-88): `None` when the
file does not exist, `None` when parsing raises, the job otherwise. -/
def load_job (store : Store) (job_id : String) : Option Job :=
  match getFile store job_id with
  | none => none
  | some f =>
    match f.content with
    | Except.ok job => some job
    | Except.error _ => none

/-- `StateManager.delete_job` (manager.py lines 160-180). -/
def delete_job (store : Store) (job_id : String) : Store :=
  store.filter (fun e => decide (e.1 ≠ job_id))

/-- The chunk-replacement loop of `save_chunk_result`
(manager.py lines 210-213): replace the first chunk with matching
`index` (the loop `break`s after the first hit). -/
def replaceChunk : List Chunk → Chunk → List Chunk
  | [], _ => []
  | c :: rest, chunk =>
    if c.index = chunk.index then chunk :: rest else c :: replaceChunk rest chunk

/-- `StateManager.save_chunk_result` (manager.py lines 197-216): load the
job (returning with no write when absent), replace the matching chunk,
save the whole job again. -/
def save_chunk_result (store : Store) (job_id : String) (chunk : Chunk)
    (now : ℕ) : Store :=
  match load_job store job_id with
  | none => store
  | some job =>
    save_job store { job with chunks := replaceChunk job.chunks chunk } now

/-- The resumable statuses of `get_incomplete_jobs`
(manager.py lines 149-155). -/
def resumable_statuses : List JobStatus :=
  [JobStatus.extracting, JobStatus.chunking, JobStatus.transcribing,
   JobStatus.merging, JobStatus.generating]

/-- The directory scan of `cleanup_old_jobs` (manager.py lines 236-250):
fold over the glob snapshot while reading and deleting from the live
store.  A record is cleaned when its age exceeds `max_age_seconds`, it
loads, and its status is `COMPLETED` or `FAILED`; under `dry_run` it is
counted but kept. -/
def cleanupFold (now max_age : ℕ) (dry_run : Bool) :
    List (String × JobFile) → ℕ × Store → ℕ × Store
  | [], acc => acc
  | e :: rest, (cleaned, st) =>
    let next :=
      if max_age < now - e.2.mtime then
        match load_job st e.1 with
        | some job =>
          if job.status = JobStatus.completed ∨ job.status = JobStatus.failed then
            (cleaned + 1, if dry_run then st else delete_job st job.id)
          else (cleaned, st)
        | none => (cleaned, st)
      else (cleaned, st)
    cleanupFold now max_age dry_run rest next

/-- `StateManager.cleanup_old_jobs` (manager.py lines 218-252). -/
def cleanup_old_jobs (store : Store) (now max_age : ℕ) (dry_run : Bool) :
    ℕ × Store :=
  cleanupFold now max_age dry_run store (0, store)

/-- Characterization of the records `cleanup_old_jobs` touches: older
than `max_age` and parsed to a `COMPLETED` or `FAILED` job. -/
def shouldClean (now max_age : ℕ) (e : String × JobFile) : Bool :=
  decide (max_age < now - e.2.mtime) &&
    match e.2.content with
    | Except.ok j =>
      decide (j.status = JobStatus.completed ∨ j.status = JobStatus.failed)
    | Except.error _ => false

/-! ## Byte-level model of the `save_job` write (for crash atomicity)

`open(job_file, "w")` truncates the file in place and `json.dump` then
streams the serialized record into it (manager.py lines 59-61). -/

/-- Filesystem operations a writer can perform. -/
inductive FsOp
  | truncate (path : String)
  | writeData (path : String) (data : String)
  | rename (src dst : String)
deriving DecidableEq, Repr

/-- Raw disk: path to byte content. -/
abbrev DiskFs := List (String × String)

/-- Raw-content lookup. -/
def getDisk (fs : DiskFs) (path : String) : Option String :=
  (fs.find? (fun e => decide (e.1 = path))).map (fun e => e.2)

/-- Create or overwrite raw content. -/
def setDisk : DiskFs → String → String → DiskFs
  | [], path, d => [(path, d)]
  | e :: rest, path, d =>
    if e.1 = path then (path, d) :: rest else e :: setDisk rest path d

/-- Effect of one filesystem operation. -/
def applyOp (fs : DiskFs) : FsOp → DiskFs
  | FsOp.truncate p => setDisk fs p ""
  | FsOp.writeData p d => setDisk fs p ((getDisk fs p).getD "" ++ d)
  | FsOp.rename src dst =>
    match getDisk fs src with
    | some d => setDisk (fs.filter (fun e => decide (e.1 ≠ src))) dst d
    | none => fs

/-- Effect of a whole operation sequence. -/
def applyOps (fs : DiskFs) (ops : List FsOp) : DiskFs :=
  ops.foldl applyOp fs

/-- `jobs/<id>.json` (manager.py lines 42-44). -/
def jobFilePath (job_id : String) : String :=
  "jobs/" ++ job_id ++ ".json"

/-- The operations `save_job` performs on disk (manager.py lines 59-61):
truncate the record file in place, then stream the serialized job into
it.  No temporary file and no rename. -/
def save_job_ops (job_id serialized : String) : List FsOp :=
  [FsOp.truncate (jobFilePath job_id),
   FsOp.writeData (jobFilePath job_id) serialized]

/-- Disk state when the process crashes during `ops`: the first `i`
operations completed; if operation `i` is a data write, only its first
`k` characters reached the disk (truncate and rename are atomic). -/
def crashDuring (fs : DiskFs) (ops : List FsOp) (i k : ℕ) : DiskFs :=
  let done := applyOps fs (ops.take i)
  match ops[i]? with
  | some (FsOp.writeData p d) =>
    applyOp done (FsOp.writeData p (String.mk (d.data.take k)))
  | _ => done

/-- Whether an operation sequence renames anything. -/
def usesRename (ops : List FsOp) : Bool :=
  ops.any fun op =>
    match op with
    | FsOp.rename _ _ => true
    | _ => false

/-! ## Orchestrator resume (`pipeline/orchestrator.py`,
`Orchestrator._resume_from_status`) -/

/-- Pipeline stages a resume can execute. -/
inductive StageRun
  | transcribeStage
  | mergeStage
  | generateStage
deriving DecidableEq, Repr

/-- `Orchestrator._resume_from_status` (orchestrator.py lines 322-398),
with the transcription engine and the document generator abstracted as
functions; the result is the final job together with the stages that
actually executed.  Only a `TRANSCRIBING` job re-runs transcription; a
`TRANSCRIBING`-or-`MERGING` job is merged; a `TRANSCRIBING`, `MERGING` or
`GENERATING` job has its document generated; then every job is marked
`COMPLETED` and saved.  No branch tests for `EXTRACTING` or `CHUNKING`. -/
def resume_from_status (m : ChunkMerger)
    (transcribeAll : List Chunk → List Chunk) (generate : Job → String)
    (job : Job) : Job × List StageRun :=
  let s1 :=
    if job.status = JobStatus.transcribing then
      ({ job with chunks := transcribeAll job.chunks },
       [StageRun.transcribeStage])
    else (job, [])
  let s2 :=
    if s1.1.status = JobStatus.transcribing ∨ s1.1.status = JobStatus.merging then
      let merged := merge_chunks m s1.1.chunks
      ({ s1.1 with
           status := JobStatus.merging
           transcription_text := some merged.1
           segments := merged.2 },
       [StageRun.mergeStage])
    else (s1.1, [])
  let s3 :=
    if s2.1.status = JobStatus.transcribing ∨ s2.1.status = JobStatus.merging ∨
        s2.1.status = JobStatus.generating then
      ({ s2.1 with
           status := JobStatus.generating
           output_path := some (generate s2.1) },
       [StageRun.generateStage])
    else (s2.1, [])
  ({ s3.1 with status := JobStatus.completed }, s1.2 ++ s2.2 ++ s3.2)

end Bout

namespace Bout

/-! # Helper lemmas -/

/-- Replacing a chunk whose index appears nowhere leaves the list as it
was. -/
theorem replaceChunk_eq_self :
    ∀ (l : List Chunk) (chunk : Chunk),
      (∀ c ∈ l, c.index ≠ chunk.index) → replaceChunk l chunk = l
  | [], _, _ => rfl
  | c :: rest, chunk, h => by
    have hc : c.index ≠ chunk.index := h c (List.mem_cons_self c rest)
    simp only [replaceChunk, if_neg hc]
    exact congrArg (c :: ·)
      (replaceChunk_eq_self rest chunk fun d hd => h d (List.mem_cons_of_mem c hd))

/-- Skipping a run of out-of-memory attempts: as long as every attempt
before `attempt + j` reports OOM and the final attempt has not been
reached, the retry loop just advances. -/
theorem transcribeFrom_oom_advance (device : String) (chunk : Chunk)
    (attempts : ℕ → ModelOutcome) (cpuOutcome : ModelOutcome)
    (max_retries now : ℕ) :
    ∀ (j attempt : ℕ), attempt + j < max_retries →
      (∀ i, attempt ≤ i → i < attempt + j → ∃ m, attempts i = ModelOutcome.oom m) →
      transcribeFrom device chunk attempts cpuOutcome max_retries now
        (max_retries - attempt) attempt =
      transcribeFrom device chunk attempts cpuOutcome max_retries now
        (max_retries - (attempt + j)) (attempt + j) := by
  intro j
  induction j with
  | zero => intro attempt _ _; rfl
  | succ j ih =>
    intro attempt hlt hoom
    obtain ⟨m, hm⟩ := hoom attempt (Nat.le_refl attempt) (by omega)
    have hfuel : max_retries - attempt = (max_retries - (attempt + 1)) + 1 := by omega
    rw [hfuel]
    simp only [transcribeFrom, hm]
    rw [if_neg (by omega)]
    have harg : attempt + 1 + j = attempt + (j + 1) := by omega
    have := ih (attempt + 1) (by omega)
      (fun i hi1 hi2 => hoom i (by omega) (by omega))
    rw [harg] at this
    exact this

/-! # Claim theorems -/

/-- C2: resuming a persisted job whose status is `EXTRACTING` — a member
of the resumable set — executes no pipeline stage at all and still marks
the job `COMPLETED`, contradicting the claim that resume re-enters the
current stage and runs every later stage before completion. -/
theorem resume_extracting_marks_completed :
    JobStatus.extracting ∈ resumable_statuses ∧
    resume_from_status { overlap_seconds := 10 } id (fun _ => "out.docx")
        { id := "j1", status := JobStatus.extracting } =
      ({ id := "j1", status := JobStatus.completed }, []) := by
  decide

/-- C3 counterexample: with the spec's stub model (chunk `k` over `[a,b]`
transcribes to the single segment `(0, b-a, "T_k")`, rebased by the
worker), merging the two planner chunks for `duration=600, cd=300, ov=10`
does not give the claimed segments `[(0,290,"T_0"),(300,600,"T_1")]`. -/
theorem two_chunk_merge_cex :
    (merge_chunks { overlap_seconds := 10 }
        [transcribe_chunk_success
            { index := 0, start_time := 0, end_time := 300, overlap_start := 0 }
            { segments := [(0, 300, "T_0")], text := "T_0" } 0,
         transcribe_chunk_success
            { index := 1, start_time := 290, end_time := 600, overlap_start := 10 }
            { segments := [(0, 310, "T_1")], text := "T_1" } 0]).2 ≠
      [{ start := 0, stop := 290, text := "T_0" },
       { start := 300, stop := 600, text := "T_1" }] := by
  decide

/-- C3 amended: the planner yields exactly `[0,300]` and `[290,600]`
(overlap_start `0` and `10`), and merging the two stub-transcribed chunks
yields the full text `"T_0 T_1"` with the two segments kept whole —
`[(0,300,"T_0"),(290,600,"T_1")]` — rather than clipped at the overlap
boundary. -/
theorem two_chunk_merge_spec :
    calculate_chunks 300 10 30 600 =
      [{ index := 0, start_time := 0, end_time := 300, overlap_start := 0 },
       { index := 1, start_time := 290, end_time := 600, overlap_start := 10 }] ∧
    merge_chunks { overlap_seconds := 10 }
        [transcribe_chunk_success
            { index := 0, start_time := 0, end_time := 300, overlap_start := 0 }
            { segments := [(0, 300, "T_0")], text := "T_0" } 0,
         transcribe_chunk_success
            { index := 1, start_time := 290, end_time := 600, overlap_start := 10 }
            { segments := [(0, 310, "T_1")], text := "T_1" } 0] =
      ("T_0 T_1",
       [{ start := 0, stop := 300, text := "T_0" },
        { start := 290, stop := 600, text := "T_1" }]) := by
  decide

/-- C5 counterexample: a model segment whose text strips to the empty
string is kept (rebased, with empty text) in the chunk's segments, on the
GPU path and on the CPU fallback alike — it is not discarded. -/
theorem empty_segment_retained_cex :
    ({ start := 10, stop := 15, text := "" } : TranscriptionSegment) ∈
      (transcribe_chunk_success
        { index := 0, start_time := 10, end_time := 20, overlap_start := 0 }
        { segments := [(0, 5, "   ")], text := "hello" } 0).segments ∧
    ({ start := 10, stop := 15, text := "" } : TranscriptionSegment) ∈
      (transcribe_on_cpu
        { index := 0, start_time := 10, end_time := 20, overlap_start := 0 }
        (ModelOutcome.ok { segments := [(0, 5, "   ")], text := "hello" }) 0).segments := by
  decide

/-- C5 amended: on a successful transcription (GPU path or CPU fallback),
the worker keeps exactly one output segment per model segment, rebased to
original-audio time by adding `chunk.start_time` to its start and end and
with its text stripped of surrounding whitespace; segments whose stripped
text is empty are retained like any other. -/
theorem rebase_segments_spec (chunk : Chunk) (result : ModelResult)
    (now i : ℕ) (s e : ℚ) (t : String)
    (h : result.segments[i]? = some (s, e, t)) :
    (transcribe_chunk_success chunk result now).segments.length =
      result.segments.length ∧
    (transcribe_on_cpu chunk (ModelOutcome.ok result) now).segments.length =
      result.segments.length ∧
    (transcribe_chunk_success chunk result now).segments[i]? =
      some { start := chunk.start_time + s, stop := chunk.start_time + e,
             text := pyStrip t } ∧
    (transcribe_on_cpu chunk (ModelOutcome.ok result) now).segments[i]? =
      some { start := chunk.start_time + s, stop := chunk.start_time + e,
             text := pyStrip t } := by
  refine ⟨?_, ?_, ?_, ?_⟩ <;>
    simp [transcribe_chunk_success, transcribe_on_cpu,
      transcribe_on_cpu_success, rebaseSegments, h]

/-- C5 witness: the amended theorem applied to a concrete chunk starting
at second 10 and a model returning one segment `(0, 5, " hi ")`. -/
theorem rebase_segments_spec_witness :
    (transcribe_chunk_success
        { index := 0, start_time := 10, end_time := 20, overlap_start := 0 }
        { segments := [(0, 5, " hi ")], text := " hi " } 3).segments.length =
      ([(0, 5, " hi ")] : List (ℚ × ℚ × String)).length ∧
    (transcribe_on_cpu
        { index := 0, start_time := 10, end_time := 20, overlap_start := 0 }
        (ModelOutcome.ok { segments := [(0, 5, " hi ")], text := " hi " }) 3).segments.length =
      ([(0, 5, " hi ")] : List (ℚ × ℚ × String)).length ∧
    (transcribe_chunk_success
        { index := 0, start_time := 10, end_time := 20, overlap_start := 0 }
        { segments := [(0, 5, " hi ")], text := " hi " } 3).segments[0]? =
      some { start := (10 : ℚ) + 0, stop := (10 : ℚ) + 5, text := pyStrip " hi " } ∧
    (transcribe_on_cpu
        { index := 0, start_time := 10, end_time := 20, overlap_start := 0 }
        (ModelOutcome.ok { segments := [(0, 5, " hi ")], text := " hi " }) 3).segments[0]? =
      some { start := (10 : ℚ) + 0, stop := (10 : ℚ) + 5, text := pyStrip " hi " } :=
  rebase_segments_spec
    { index := 0, start_time := 10, end_time := 20, overlap_start := 0 }
    { segments := [(0, 5, " hi ")], text := " hi " } 3 0 0 5 " hi " rfl

/-- C10: `save_chunk_result` never raises; with no persisted record for
the id it returns without writing, and when no stored chunk matches the
incoming index it rewrites the job with its chunk list unchanged — only
`updated_at` (and the file mtime) move — silently dropping the result. -/
theorem save_chunk_result_spec (store : Store) (job_id : String)
    (chunk : Chunk) (now : ℕ) :
    (load_job store job_id = none →
      save_chunk_result store job_id chunk now = store) ∧
    (∀ job, load_job store job_id = some job →
      (∀ c ∈ job.chunks, c.index ≠ chunk.index) →
      save_chunk_result store job_id chunk now =
        setFile store job.id
          { mtime := now, content := Except.ok { job with updated_at := now } }) := by
  constructor
  · intro h
    simp [save_chunk_result, h]
  · intro job hload hno
    simp [save_chunk_result, hload, save_job, replaceChunk_eq_self job.chunks chunk hno]

/-- C10 witness: the theorem applied to a one-record store, once with a
missing id and once with a stored job owning no chunk of index 2. -/
theorem save_chunk_result_spec_witness :
    save_chunk_result
        [("j1", { mtime := 4,
                  content := Except.ok { id := "j1", chunks := [{ index := 0, start_time := 0, end_time := 5, overlap_start := 0 }] } })]
        "nope" { index := 2, start_time := 0, end_time := 1, overlap_start := 0 } 9 =
      [("j1", { mtime := 4,
                content := Except.ok { id := "j1", chunks := [{ index := 0, start_time := 0, end_time := 5, overlap_start := 0 }] } })] ∧
    save_chunk_result
        [("j1", { mtime := 4,
                  content := Except.ok { id := "j1", chunks := [{ index := 0, start_time := 0, end_time := 5, overlap_start := 0 }] } })]
        "j1" { index := 2, start_time := 0, end_time := 1, overlap_start := 0 } 9 =
      setFile
        [("j1", { mtime := 4,
                  content := Except.ok { id := "j1", chunks := [{ index := 0, start_time := 0, end_time := 5, overlap_start := 0 }] } })]
        "j1"
        { mtime := 9,
          content := Except.ok { id := "j1", updated_at := 9, chunks := [{ index := 0, start_time := 0, end_time := 5, overlap_start := 0 }] } } :=
  ⟨(save_chunk_result_spec _ "nope" _ 9).1 (by decide),
   (save_chunk_result_spec _ "j1" _ 9).2
     { id := "j1", chunks := [{ index := 0, start_time := 0, end_time := 5, overlap_start := 0 }] }
     (by decide) (by decide)⟩


/-- C7 counterexample: with a GPU device, three OOM attempts and a CPU
fallback that raises a non-OOM `RuntimeError`, `transcribe_chunk` does
not raise `TranscriptionError`: it returns the chunk marked `FAILED`, and
the batch driver then proceeds to the next chunk. -/
theorem cpu_fallback_error_cex :
    transcribe_chunk "cuda"
        { index := 0, start_time := 0, end_time := 300, overlap_start := 0,
          file_path := some "chunk_000.wav" }
        (fun _ => ModelOutcome.oom "CUDA out of memory")
        (ModelOutcome.runtimeErr "bad tensor") 3 7 =
      TranscribeOutcome.returned
        { index := 0, start_time := 0, end_time := 300, overlap_start := 0,
          file_path := some "chunk_000.wav", status := ChunkStatus.failed,
          error := some "bad tensor" } ∧
    TEvent.transcribeStart 1 ∈
      transcribe_all_chunks_trace
        (fun c => transcribe_chunk "cuda" c
          (fun _ => ModelOutcome.oom "CUDA out of memory")
          (ModelOutcome.runtimeErr "bad tensor") 3 7)
        [{ index := 0, start_time := 0, end_time := 300, overlap_start := 0,
           file_path := some "chunk_000.wav" },
         { index := 1, start_time := 290, end_time := 600, overlap_start := 10,
           file_path := some "chunk_001.wav" }] := by
  decide

/-- C7 amended: a non-OOM `RuntimeError` during a regular attempt makes
`transcribe_chunk` raise `TranscriptionError` at once, with no further
retry; but an error during the CPU fallback is swallowed by its bare
`except`: the chunk comes back `FAILED` with the error recorded, nothing
is raised, and the batch driver continues with later chunks. -/
theorem transcribe_error_spec :
    (∀ (device : String) (chunk : Chunk) (attempts : ℕ → ModelOutcome)
        (cpuOutcome : ModelOutcome) (max_retries now k : ℕ) (msg : String),
      chunk.file_path ≠ none →
      k < max_retries →
      (∀ i, i < k → ∃ m, attempts i = ModelOutcome.oom m) →
      attempts k = ModelOutcome.runtimeErr msg →
      transcribe_chunk device chunk attempts cpuOutcome max_retries now =
        TranscribeOutcome.raisedTranscriptionError
          ("Chunk " ++ toString chunk.index ++ ": " ++ msg)) ∧
    (∀ (device : String) (chunk : Chunk) (attempts : ℕ → ModelOutcome)
        (cmsg : String) (cpuOutcome : ModelOutcome) (max_retries now : ℕ),
      chunk.file_path ≠ none →
      device ≠ "cpu" →
      0 < max_retries →
      (∀ i, i < max_retries → ∃ m, attempts i = ModelOutcome.oom m) →
      (cpuOutcome = ModelOutcome.oom cmsg ∨
        cpuOutcome = ModelOutcome.runtimeErr cmsg ∨
        cpuOutcome = ModelOutcome.otherErr cmsg) →
      transcribe_chunk device chunk attempts cpuOutcome max_retries now =
        TranscribeOutcome.returned
          { chunk with status := ChunkStatus.failed, error := some cmsg }) := by
  constructor
  · intro device chunk attempts cpuOutcome max_retries now k msg hfp hk hoom hrt
    unfold transcribe_chunk
    rw [if_neg hfp]
    have hadv := transcribeFrom_oom_advance device chunk attempts cpuOutcome
      max_retries now k 0 (by omega) (fun i h1 h2 => hoom i (by omega))
    simp only [Nat.zero_add, Nat.sub_zero] at hadv
    rw [hadv]
    have hfk : max_retries - k = (max_retries - k - 1) + 1 := by omega
    rw [hfk]
    simp only [transcribeFrom, hrt]
  · intro device chunk attempts cmsg cpuOutcome max_retries now hfp hdev hmr hoom hcpu
    unfold transcribe_chunk
    rw [if_neg hfp]
    have hadv := transcribeFrom_oom_advance device chunk attempts cpuOutcome
      max_retries now (max_retries - 1) 0 (by omega)
      (fun i h1 h2 => hoom i (by omega))
    simp only [Nat.zero_add, Nat.sub_zero] at hadv
    rw [hadv]
    have h1 : max_retries - (max_retries - 1) = 0 + 1 := by omega
    rw [h1]
    obtain ⟨m, hm⟩ := hoom (max_retries - 1) (by omega)
    simp only [transcribeFrom, hm]
    rw [if_pos trivial, if_pos hdev]
    rcases hcpu with h | h | h <;> subst h <;> rfl

/-- C7 witness: the amended theorem at concrete inputs — a non-OOM
`RuntimeError` on attempt 2 after two OOMs raises `TranscriptionError`;
three OOMs followed by a failing CPU fallback return a `FAILED` chunk. -/
theorem transcribe_error_spec_witness :
    transcribe_chunk "cuda"
        { index := 5, start_time := 0, end_time := 3, overlap_start := 0,
          file_path := some "f.wav" }
        (fun i => if i < 2 then ModelOutcome.oom "gpu oom"
          else ModelOutcome.runtimeErr "boom")
        (ModelOutcome.ok {}) 3 0 =
      TranscribeOutcome.raisedTranscriptionError
        ("Chunk " ++ toString (5 : ℕ) ++ ": " ++ "boom") ∧
    transcribe_chunk "cuda"
        { index := 0, start_time := 0, end_time := 3, overlap_start := 0,
          file_path := some "f.wav" }
        (fun _ => ModelOutcome.oom "gpu oom")
        (ModelOutcome.runtimeErr "cpu fail") 3 0 =
      TranscribeOutcome.returned
        { index := 0, start_time := 0, end_time := 3, overlap_start := 0,
          file_path := some "f.wav", status := ChunkStatus.failed,
          error := some "cpu fail" } :=
  ⟨transcribe_error_spec.1 "cuda" _ _ _ 3 0 2 "boom" (by decide) (by decide)
      (fun i hi => ⟨"gpu oom", by simp [hi]⟩) (by decide),
   transcribe_error_spec.2 "cuda" _ _ "cpu fail" _ 3 0 (by decide) (by decide)
      (by decide) (fun i _ => ⟨"gpu oom", rfl⟩) (Or.inr (Or.inl rfl))⟩

/-- C8 counterexample: a `CANCELLED` record far older than the age bound
is neither counted nor deleted by `cleanup_old_jobs`, although the claim
counts `CANCELLED` among the terminal statuses it deletes. -/
theorem cleanup_cancelled_cex :
    (10 : ℕ) < 100 - 0 ∧
    cleanup_old_jobs
        [("j1", { mtime := 0,
                  content := Except.ok { id := "j1", status := JobStatus.cancelled } })]
        100 10 false =
      (0,
       [("j1", { mtime := 0,
                 content := Except.ok { id := "j1", status := JobStatus.cancelled } })]) := by
  decide


/-- Looking up a path just written returns the written content. -/
theorem getDisk_setDisk_self :
    ∀ (fs : DiskFs) (p d : String), getDisk (setDisk fs p d) p = some d
  | [], p, d => by simp [setDisk, getDisk]
  | e :: rest, p, d => by
    by_cases h : e.1 = p
    · simp [setDisk, if_pos h, getDisk]
    · have ih := getDisk_setDisk_self rest p d
      simp only [setDisk, if_neg h, getDisk, List.find?] at ih ⊢
      rw [decide_eq_false h]
      exact ih

/-- C1 counterexample: the `save_job` write performs no rename, and a
crash midway through the data write leaves `jobs/j1.json` holding `"NEW"`
— neither the old record `"OLDDATA"` nor the new record `"NEWDATA"`: a
torn record on disk. -/
theorem save_job_torn_write_cex :
    usesRename (save_job_ops "j1" "NEWDATA") = false ∧
    getDisk
        (crashDuring [(jobFilePath "j1", "OLDDATA")]
          (save_job_ops "j1" "NEWDATA") 1 3)
        (jobFilePath "j1") = some "NEW" ∧
    ("NEW" : String) ≠ "OLDDATA" ∧ ("NEW" : String) ≠ "NEWDATA" := by
  decide

/-- C1 amended: `save_job` writes `jobs/<id>.json` by an in-place
truncate-and-write with no rename, so a crash during the write can leave
a torn record; a completed write does replace the whole file with the
serialized record; and `load_job` returns `None` — never a partial record
and never an exception — whenever the file is absent or fails to parse,
and returns the job exactly when parsing succeeds. -/
theorem save_job_load_job_spec :
    (∀ job_id serialized : String,
      usesRename (save_job_ops job_id serialized) = false) ∧
    (∀ (fs : DiskFs) (job_id serialized : String),
      getDisk (applyOps fs (save_job_ops job_id serialized))
        (jobFilePath job_id) = some serialized) ∧
    (∀ (store : Store) (job_id : String) (mt : ℕ) (msg : String),
      (getFile store job_id = none → load_job store job_id = none) ∧
      (getFile store job_id = some { mtime := mt, content := Except.error msg } →
        load_job store job_id = none) ∧
      (∀ j, getFile store job_id = some { mtime := mt, content := Except.ok j } →
        load_job store job_id = some j)) ∧
    getDisk
        (crashDuring [(jobFilePath "j2", "AAAA")] (save_job_ops "j2" "BBBB") 1 2)
        (jobFilePath "j2") = some "BB" := by
  refine ⟨fun _ _ => rfl, ?_, ?_, by decide⟩
  · intro fs job_id serialized
    simp only [save_job_ops, applyOps, List.foldl, applyOp, getDisk_setDisk_self,
      Option.getD_some, String.empty_append]
  · intro store job_id mt msg
    refine ⟨fun h => ?_, fun h => ?_, fun j h => ?_⟩ <;> simp [load_job, h]

/-- C1 witness: the load behaviour of the amended theorem at a concrete
two-record store (one unparseable record, one good one) and a missing id,
together with the no-rename fact and a complete write at a concrete
input. -/
theorem save_job_load_job_spec_witness :
    load_job
        [("ja", { mtime := 1, content := Except.error "bad json" }),
         ("jb", { mtime := 2, content := Except.ok { id := "jb" } })]
        "missing" = none ∧
    load_job
        [("ja", { mtime := 1, content := Except.error "bad json" }),
         ("jb", { mtime := 2, content := Except.ok { id := "jb" } })]
        "ja" = none ∧
    load_job
        [("ja", { mtime := 1, content := Except.error "bad json" }),
         ("jb", { mtime := 2, content := Except.ok { id := "jb" } })]
        "jb" = some { id := "jb" } ∧
    usesRename (save_job_ops "jx" "DATA") = false ∧
    getDisk (applyOps [] (save_job_ops "jx" "DATA")) (jobFilePath "jx") =
      some "DATA" :=
  ⟨(save_job_load_job_spec.2.2.1
      [("ja", { mtime := 1, content := Except.error "bad json" }),
       ("jb", { mtime := 2, content := Except.ok { id := "jb" } })]
      "missing" 0 "").1 (by decide),
   (save_job_load_job_spec.2.2.1
      [("ja", { mtime := 1, content := Except.error "bad json" }),
       ("jb", { mtime := 2, content := Except.ok { id := "jb" } })]
      "ja" 1 "bad json").2.1 (by decide),
   (save_job_load_job_spec.2.2.1
      [("ja", { mtime := 1, content := Except.error "bad json" }),
       ("jb", { mtime := 2, content := Except.ok { id := "jb" } })]
      "jb" 2 "").2.2 { id := "jb" } (by decide),
   save_job_load_job_spec.1 "jx" "DATA",
   save_job_load_job_spec.2.1 [] "jx" "DATA"⟩


/-- Decomposition of the `transcribe_all_chunks` trace at a transcribed
chunk: its transcribe-start, checkpoint, progress and cleanup events form
a contiguous block, and everything for later chunks comes strictly after,
provided no earlier chunk raised. -/
theorem transcribeAllTrace_decomp (f : Chunk → TranscribeOutcome) (total : ℕ) :
    ∀ (j : ℕ) (cs : List Chunk) (k : ℕ) (c c2 : Chunk),
      cs[j]? = some c →
      c.status ≠ ChunkStatus.completed →
      f c = TranscribeOutcome.returned c2 →
      (∀ i ci, i < j → cs[i]? = some ci →
        ci.status = ChunkStatus.completed ∨
          ∃ ci2, f ci = TranscribeOutcome.returned ci2) →
      ∃ pre, transcribeAllTrace f total cs k =
        pre ++ TEvent.transcribeStart c.index :: TEvent.checkpoint c2.index ::
          TEvent.progress (k + j + 1) total :: TEvent.memCleanup ::
            transcribeAllTrace f total (cs.drop (j + 1)) (k + j + 1) := by
  intro j
  induction j with
  | zero =>
    intro cs k c c2 hc hst hf _
    cases cs with
    | nil => simp at hc
    | cons c0 rest =>
      have hc0 : c0 = c := by simpa using hc
      subst hc0
      refine ⟨[], ?_⟩
      simp only [transcribeAllTrace, if_neg hst, hf]
      simp
  | succ j ih =>
    intro cs k c c2 hc hst hf hpre
    cases cs with
    | nil => simp at hc
    | cons c0 rest =>
      have hc' : rest[j]? = some c := by simpa using hc
      have hpre' : ∀ i ci, i < j → rest[i]? = some ci →
          ci.status = ChunkStatus.completed ∨
            ∃ ci2, f ci = TranscribeOutcome.returned ci2 := by
        intro i ci hi hgi
        exact hpre (i + 1) ci (by omega) (by simpa using hgi)
      obtain ⟨pre, hdec⟩ := ih rest (k + 1) c c2 hc' hst hf hpre'
      have harith : k + 1 + j + 1 = k + (j + 1) + 1 := by omega
      rw [harith] at hdec
      by_cases h0 : c0.status = ChunkStatus.completed
      · refine ⟨TEvent.progress (k + 1) total :: pre, ?_⟩
        simp only [transcribeAllTrace, if_pos h0]
        rw [hdec]
        simp
      · obtain ⟨c02, h02⟩ :=
          (hpre 0 c0 (by omega) (by simp)).resolve_left h0
        refine ⟨TEvent.transcribeStart c0.index :: TEvent.checkpoint c02.index ::
          TEvent.progress (k + 1) total :: TEvent.memCleanup :: pre, ?_⟩
        simp only [transcribeAllTrace, if_neg h0, h02]
        rw [hdec]
        simp

/-- C6: the batch driver walks the chunk list in order; for every chunk
it actually transcribes (every earlier chunk having been skipped or
transcribed without raising), the checkpoint callback for that chunk
happens before the progress report `(i+1, N)`, which happens before any
event of a later chunk — an observer never sees progress for a result not
yet handed to the checkpoint callback. -/
theorem transcribe_all_order_spec (f : Chunk → TranscribeOutcome)
    (cs : List Chunk) (j : ℕ) (c c2 : Chunk)
    (hc : cs[j]? = some c)
    (hst : c.status ≠ ChunkStatus.completed)
    (hf : f c = TranscribeOutcome.returned c2)
    (hpre : ∀ i ci, i < j → cs[i]? = some ci →
      ci.status = ChunkStatus.completed ∨
        ∃ ci2, f ci = TranscribeOutcome.returned ci2) :
    ∃ pre, transcribe_all_chunks_trace f cs =
      pre ++ TEvent.transcribeStart c.index :: TEvent.checkpoint c2.index ::
        TEvent.progress (j + 1) cs.length :: TEvent.memCleanup ::
          transcribeAllTrace f cs.length (cs.drop (j + 1)) (j + 1) := by
  have h := transcribeAllTrace_decomp f cs.length j cs 0 c c2 hc hst hf hpre
  simpa [transcribe_all_chunks_trace] using h

/-- C6 witness: the ordering theorem at a two-chunk list whose first
chunk is already COMPLETED (skipped on resume) and whose second is
transcribed by a model that returns the chunk unchanged. -/
theorem transcribe_all_order_spec_witness :
    ∃ pre, transcribe_all_chunks_trace TranscribeOutcome.returned
        [{ index := 0, start_time := 0, end_time := 300, overlap_start := 0,
           status := ChunkStatus.completed },
         { index := 1, start_time := 290, end_time := 600, overlap_start := 10 }] =
      pre ++ [TEvent.transcribeStart 1, TEvent.checkpoint 1,
        TEvent.progress 2 2, TEvent.memCleanup] :=
  transcribe_all_order_spec TranscribeOutcome.returned
    [{ index := 0, start_time := 0, end_time := 300, overlap_start := 0,
       status := ChunkStatus.completed },
     { index := 1, start_time := 290, end_time := 600, overlap_start := 10 }]
    1
    { index := 1, start_time := 290, end_time := 600, overlap_start := 10 }
    { index := 1, start_time := 290, end_time := 600, overlap_start := 10 }
    (by decide) (by decide) rfl
    (fun i ci hi hgi => by
      have hi0 : i = 0 := by omega
      subst hi0
      simp only [List.getElem?_cons_zero, Option.some.injEq] at hgi
      subst hgi
      exact Or.inl rfl)


/-- The head of a non-empty list (with the `Inhabited` default) is a
member. -/
theorem headI_mem {α : Type} [Inhabited α] :
    ∀ {l : List α}, l ≠ [] → l.headI ∈ l
  | [], h => absurd rfl h
  | a :: l, _ => List.mem_cons_self a l

/-- The per-position segment filters never read a chunk's `status`:
updating every status leaves `mergePieces` unchanged. -/
theorem mergePieces_statusMap (m : ChunkMerger) (f : Chunk → ChunkStatus)
    (n : ℕ) :
    ∀ (i : ℕ) (l : List Chunk),
      mergePieces m n i (l.map fun c => { c with status := f c }) =
        mergePieces m n i l
  | _, [] => rfl
  | i, c :: rest => by
    simp only [List.map, mergePieces]
    rw [mergePieces_statusMap m f n (i + 1) rest]
    rfl


/-- Every piece produced by `mergePieces` is a sublist selection of one
input chunk's segment list. -/
theorem mergePieces_sub (m : ChunkMerger) (n : ℕ) :
    ∀ (i : ℕ) (l : List Chunk) (piece : List TranscriptionSegment),
      piece ∈ mergePieces m n i l → ∃ c ∈ l, ∀ s ∈ piece, s ∈ c.segments
  | _, [], piece => by simp [mergePieces]
  | i, c :: rest, piece => by
    intro hp
    simp only [mergePieces, List.mem_cons] at hp
    rcases hp with hp | hp
    · refine ⟨c, List.mem_cons_self c rest, ?_⟩
      intro s hs
      rw [hp] at hs
      split_ifs at hs <;>
        simp only [filter_segments_first_chunk, filter_segments_last_chunk,
          filter_segments_middle_chunk, List.mem_filter] at hs <;>
        exact hs.1
    · obtain ⟨c', hc', hsub⟩ := mergePieces_sub m n (i + 1) rest piece hp
      exact ⟨c', List.mem_cons_of_mem c hc', hsub⟩

/-- C9: the merger only selects segments — every output segment belongs,
unchanged, to the segment list of some input chunk whose `text` is not
`None` — and chunk participation ignores `status` entirely: rewriting
every chunk's status (e.g. marking chunks `FAILED`) leaves the merge
result identical, so a `FAILED` chunk carrying text is merged. -/
theorem merge_chunks_frame_spec (m : ChunkMerger) (chunks : List Chunk) :
    (∀ seg ∈ (merge_chunks m chunks).2,
      ∃ c ∈ chunks, c.text ≠ none ∧ seg ∈ c.segments) ∧
    (∀ f : Chunk → ChunkStatus,
      merge_chunks m (chunks.map fun c => { c with status := f c }) =
        merge_chunks m chunks) := by
  constructor
  · intro seg hseg
    by_cases hnil : chunks = []
    · subst hnil
      simp [merge_chunks] at hseg
    · simp only [merge_chunks, if_neg hnil] at hseg
      have hmem : ∀ c : Chunk,
          c ∈ (List.insertionSort (fun a b : Chunk => a.index ≤ b.index)
            chunks).filter (fun c => c.text ≠ none) →
          c ∈ chunks ∧ c.text ≠ none := by
        intro c hc
        have h1 := List.mem_filter.mp hc
        constructor
        · have := h1.1
          simpa using this
        · simpa using h1.2
      split_ifs at hseg with h1 h2
      · simp at hseg
      · obtain ⟨hc, ht⟩ := hmem _ (headI_mem h1)
        exact ⟨_, hc, ht, hseg⟩
      · have hseg' : seg ∈
            (mergePieces m
              ((List.insertionSort (fun a b : Chunk => a.index ≤ b.index)
                chunks).filter (fun c => c.text ≠ none)).length 0
              ((List.insertionSort (fun a b : Chunk => a.index ≤ b.index)
                chunks).filter (fun c => c.text ≠ none))).flatten := by
          simpa using hseg
        obtain ⟨piece, hpiece, hsseg⟩ := List.mem_flatten.mp hseg'
        obtain ⟨c, hc, hsub⟩ := mergePieces_sub m _ 0 _ piece hpiece
        obtain ⟨hcc, ht⟩ := hmem c hc
        exact ⟨c, hcc, ht, hsub seg hsseg⟩
  · intro f
    by_cases hnil : chunks = []
    · subst hnil; rfl
    · have hmapnil : chunks.map (fun c => { c with status := f c }) ≠ [] := by
        simpa using hnil
      have hsort : List.insertionSort (fun a b : Chunk => a.index ≤ b.index)
          (chunks.map fun c => { c with status := f c }) =
          (List.insertionSort (fun a b : Chunk => a.index ≤ b.index)
            chunks).map (fun c => { c with status := f c }) :=
        (List.map_insertionSort (fun a b : Chunk => a.index ≤ b.index)
          (fun a b : Chunk => a.index ≤ b.index)
          (fun c => { c with status := f c }) chunks
          (fun a _ b _ => Iff.rfl)).symm
      simp only [merge_chunks, if_neg hnil, if_neg hmapnil, hsort,
        List.filter_map]
      have hfc : ((fun c : Chunk => decide (c.text ≠ none)) ∘
          (fun c => { c with status := f c })) =
          fun c : Chunk => decide (c.text ≠ none) := rfl
      rw [hfc]
      by_cases hcn : (List.insertionSort (fun a b : Chunk => a.index ≤ b.index)
          chunks).filter (fun c => c.text ≠ none) = []
      · rw [hcn]
        rfl
      · have hmn : ((List.insertionSort (fun a b : Chunk => a.index ≤ b.index)
            chunks).filter (fun c => c.text ≠ none)).map
              (fun c => { c with status := f c }) ≠ [] := by
          simpa using hcn
        rw [if_neg hmn, if_neg hcn, List.length_map]
        by_cases hlen : ((List.insertionSort (fun a b : Chunk => a.index ≤ b.index)
            chunks).filter (fun c => c.text ≠ none)).length = 1
        · rw [if_pos hlen, if_pos hlen]
          obtain ⟨a, ha⟩ := List.length_eq_one.mp hlen
          rw [ha]
          rfl
        · rw [if_neg hlen, if_neg hlen, mergePieces_statusMap]

/-- C9 witness: a single `FAILED` chunk carrying text participates in the
merge (its segment comes back verbatim), and marking it `PROCESSING`
instead changes nothing. -/
theorem merge_chunks_frame_spec_witness :
    (∃ c ∈ [({ index := 0, start_time := 0, end_time := 100, overlap_start := 0,
               status := ChunkStatus.failed, text := some "recovered",
               segments := [{ start := 0, stop := 100, text := "recovered" }] } : Chunk)],
      c.text ≠ none ∧
        ({ start := 0, stop := 100, text := "recovered" } : TranscriptionSegment) ∈
          c.segments) ∧
    merge_chunks { overlap_seconds := 10 }
        ([({ index := 0, start_time := 0, end_time := 100, overlap_start := 0,
             status := ChunkStatus.failed, text := some "recovered",
             segments := [{ start := 0, stop := 100, text := "recovered" }] } : Chunk)].map
          fun c => { c with status := ChunkStatus.processing }) =
      merge_chunks { overlap_seconds := 10 }
        [({ index := 0, start_time := 0, end_time := 100, overlap_start := 0,
            status := ChunkStatus.failed, text := some "recovered",
            segments := [{ start := 0, stop := 100, text := "recovered" }] } : Chunk)] :=
  ⟨(merge_chunks_frame_spec { overlap_seconds := 10 } _).1
      { start := 0, stop := 100, text := "recovered" } (by decide),
   (merge_chunks_frame_spec { overlap_seconds := 10 } _).2
      (fun _ => ChunkStatus.processing)⟩

/-- Deleting one record leaves every other key's lookup unchanged. -/
theorem getFile_delete_ne : ∀ (st : Store) (k k' : String), k' ≠ k →
    getFile (delete_job st k) k' = getFile st k'
  | [], _, _, _ => rfl
  | e :: rest, k, k', h => by
    have ih := getFile_delete_ne rest k k' h
    have hkk : ¬(k = k') := fun hh => h hh.symm
    by_cases he : e.1 = k
    · have h2 : ¬(e.1 = k') := by
        rw [he]
        exact hkk
      simpa [delete_job, getFile, List.filter_cons, List.find?, he, h2, hkk,
        h] using ih
    · by_cases h2 : e.1 = k'
      · simp [delete_job, getFile, List.filter_cons, List.find?, he, h2, hkk, h]
      · simpa [delete_job, getFile, List.filter_cons, List.find?, he, h2, hkk,
          h] using ih

/-- In a store with pairwise-distinct file names, looking up an entry's
own name returns that entry. -/
theorem getFile_mem_nodup : ∀ (st : Store),
    (st.map Prod.fst).Nodup → ∀ e ∈ st, getFile st e.1 = some e.2
  | [], _, e, he => absurd he (List.not_mem_nil e)
  | hd :: rest, hnd, e, he => by
    rcases List.mem_cons.mp he with rfl | hmem
    · simp [getFile, List.find?]
    · have hne : hd.1 ≠ e.1 := by
        intro hh
        have : hd.1 ∈ rest.map Prod.fst := hh ▸ List.mem_map_of_mem Prod.fst hmem
        exact (List.nodup_cons.mp (by simpa using hnd)).1 this
      have ih := getFile_mem_nodup rest
        (List.nodup_cons.mp (by simpa using hnd)).2 e hmem
      simpa [getFile, List.find?, hne] using ih

/-- Full characterization of the `cleanup_old_jobs` fold: it counts the
`shouldClean` entries of the pending snapshot and, unless `dry_run`,
removes exactly their keys from the live store. -/
theorem cleanupFold_spec (now max_age : ℕ) :
    ∀ (pending : List (String × JobFile)) (st : Store) (cleaned : ℕ),
      (∀ e ∈ pending, getFile st e.1 = some e.2) →
      (pending.map Prod.fst).Nodup →
      (∀ e ∈ pending, ∀ j, e.2.content = Except.ok j → j.id = e.1) →
      cleanupFold now max_age true pending (cleaned, st) =
        (cleaned + (pending.filter (shouldClean now max_age)).length, st) ∧
      cleanupFold now max_age false pending (cleaned, st) =
        (cleaned + (pending.filter (shouldClean now max_age)).length,
         st.filter fun x =>
           !decide (x.1 ∈ (pending.filter (shouldClean now max_age)).map Prod.fst))
  | [], st, cleaned, _, _, _ => by
    simp [cleanupFold, List.filter]
  | e :: rest, st, cleaned, hlook, hnd, hids => by
    have hlooke : getFile st e.1 = some e.2 := hlook e (List.mem_cons_self e rest)
    have hndr : (rest.map Prod.fst).Nodup :=
      (List.nodup_cons.mp (by simpa using hnd)).2
    have hkey : e.1 ∉ rest.map Prod.fst :=
      (List.nodup_cons.mp (by simpa using hnd)).1
    have hidsr : ∀ x ∈ rest, ∀ j, x.2.content = Except.ok j → j.id = x.1 :=
      fun x hx => hids x (List.mem_cons_of_mem e hx)
    have hload : load_job st e.1 =
        match e.2.content with
        | Except.ok j => some j
        | Except.error _ => none := by
      rw [load_job, hlooke]
    by_cases hage : max_age < now - e.2.mtime
    · cases hcontent : e.2.content with
      | error msg =>
        have hsc : (e :: rest).filter (shouldClean now max_age) =
            rest.filter (shouldClean now max_age) := by
          simp [List.filter_cons, shouldClean, hcontent]
        have hnext : ∀ dry, cleanupFold now max_age dry (e :: rest) (cleaned, st) =
            cleanupFold now max_age dry rest (cleaned, st) := by
          intro dry
          simp [cleanupFold, hage, hload, hcontent]
        have ih := cleanupFold_spec now max_age rest st cleaned
          (fun x hx => hlook x (List.mem_cons_of_mem e hx)) hndr hidsr
        rw [hnext, hnext, hsc]
        exact ih
      | ok j =>
        have hid : j.id = e.1 := hids e (List.mem_cons_self e rest) j hcontent
        by_cases hterm : j.status = JobStatus.completed ∨ j.status = JobStatus.failed
        · have hsc : (e :: rest).filter (shouldClean now max_age) =
              e :: rest.filter (shouldClean now max_age) := by
            simp [List.filter_cons, shouldClean, hcontent, hage, hterm]
          have ihdry := cleanupFold_spec now max_age rest st (cleaned + 1)
            (fun x hx => hlook x (List.mem_cons_of_mem e hx)) hndr hidsr
          have hlookdel : ∀ x ∈ rest, getFile (delete_job st e.1) x.1 = some x.2 := by
            intro x hx
            have hne : x.1 ≠ e.1 := by
              intro hh
              exact hkey (hh ▸ List.mem_map_of_mem Prod.fst hx)
            rw [getFile_delete_ne st e.1 x.1 hne]
            exact hlook x (List.mem_cons_of_mem e hx)
          have ihwet := cleanupFold_spec now max_age rest (delete_job st e.1)
            (cleaned + 1) hlookdel hndr hidsr
          constructor
          · have hstep : cleanupFold now max_age true (e :: rest) (cleaned, st) =
                cleanupFold now max_age true rest (cleaned + 1, st) := by
              simp [cleanupFold, hage, hload, hcontent, hterm]
            rw [hstep, ihdry.1, hsc]
            refine Prod.ext ?_ rfl
            simp only [List.length_cons]
            omega
          · have hstep : cleanupFold now max_age false (e :: rest) (cleaned, st) =
                cleanupFold now max_age false rest (cleaned + 1, delete_job st e.1) := by
              simp [cleanupFold, hage, hload, hcontent, hterm, hid]
            rw [hstep, ihwet.2, hsc]
            refine Prod.ext ?_ ?_
            · simp only [List.length_cons]
              omega
            · simp only [List.map_cons]
              rw [delete_job, List.filter_filter]
              apply List.filter_congr
              intro x _
              by_cases h1 : x.1 = e.1 <;> by_cases h2 :
                  x.1 ∈ (rest.filter (shouldClean now max_age)).map Prod.fst <;>
                simp [h1, h2]
        · have hsc : (e :: rest).filter (shouldClean now max_age) =
              rest.filter (shouldClean now max_age) := by
            simp only [List.filter_cons, shouldClean, hcontent]
            rw [if_neg]
            simp [hterm]
          have hnext : ∀ dry, cleanupFold now max_age dry (e :: rest) (cleaned, st) =
              cleanupFold now max_age dry rest (cleaned, st) := by
            intro dry
            simp [cleanupFold, hage, hload, hcontent, hterm]
          have ih := cleanupFold_spec now max_age rest st cleaned
            (fun x hx => hlook x (List.mem_cons_of_mem e hx)) hndr hidsr
          rw [hnext, hnext, hsc]
          exact ih
    · have hsc : (e :: rest).filter (shouldClean now max_age) =
          rest.filter (shouldClean now max_age) := by
        simp [List.filter_cons, shouldClean, hage]
      have hnext : ∀ dry, cleanupFold now max_age dry (e :: rest) (cleaned, st) =
          cleanupFold now max_age dry rest (cleaned, st) := by
        intro dry
        simp [cleanupFold, hage]
      have ih := cleanupFold_spec now max_age rest st cleaned
        (fun x hx => hlook x (List.mem_cons_of_mem e hx)) hndr hidsr
      rw [hnext, hnext, hsc]
      exact ih

/-- C8: on a jobs directory with distinct file names whose parseable
records carry their own file name as id, `cleanup_old_jobs` counts and
deletes exactly the records older than `max_age` whose status is
`COMPLETED` or `FAILED`; every other record — `CANCELLED`, non-terminal,
young, or unparseable — is kept, and under `dry_run` the matches are
counted but nothing is deleted. -/
theorem cleanup_old_jobs_spec (store : Store) (now max_age : ℕ)
    (hkeys : (store.map Prod.fst).Nodup)
    (hids : ∀ e ∈ store, ∀ j, e.2.content = Except.ok j → j.id = e.1) :
    cleanup_old_jobs store now max_age true =
      ((store.filter (shouldClean now max_age)).length, store) ∧
    cleanup_old_jobs store now max_age false =
      ((store.filter (shouldClean now max_age)).length,
       store.filter fun e => !shouldClean now max_age e) := by
  have h := cleanupFold_spec now max_age store store 0
    (getFile_mem_nodup store hkeys) hkeys hids
  refine ⟨by simpa [cleanup_old_jobs] using h.1, ?_⟩
  rw [cleanup_old_jobs, h.2]
  refine Prod.ext (by simp) ?_
  apply List.filter_congr
  intro x hx
  by_cases hsc : shouldClean now max_age x = true
  · have : x.1 ∈ (store.filter (shouldClean now max_age)).map Prod.fst :=
      List.mem_map_of_mem Prod.fst (List.mem_filter.mpr ⟨hx, hsc⟩)
    simp [this, hsc]
  · have hx1 : x.1 ∉ (store.filter (shouldClean now max_age)).map Prod.fst := by
      intro hmem
      obtain ⟨y, hy, hyx⟩ := List.mem_map.mp hmem
      have hymem := List.mem_filter.mp hy
      have : y = x := List.inj_on_of_nodup_map hkeys hymem.1 hx hyx
      exact hsc (this ▸ hymem.2)
    have hf : shouldClean now max_age x = false := by
      revert hsc
      cases shouldClean now max_age x <;> simp
    simp [hx1, hf]


/-- When the planner loop stops because `start_time` passed `duration`,
the accumulated plan is nonempty, keeps its invariants, and its last
chunk already ends at `duration`. -/
theorem calcLoop_exit (cd ov mc : ℤ) (duration : ℚ) (hov0 : 0 ≤ ov)
    (index : ℕ) (start_time : ℚ) (acc : List Chunk)
    (hlen : acc.length = index)
    (hinv : ∀ (i : ℕ) (c : Chunk), acc[i]? = some c →
      c.index = i ∧ c.start_time = (i : ℚ) * ((cd : ℚ) - (ov : ℚ)) ∧
      c.overlap_start = (if 0 < i then (ov : ℚ) else 0) ∧
      (mc : ℚ) ≤ c.end_time - c.start_time ∧ c.end_time ≤ duration)
    (hstart : start_time = (index : ℚ) * ((cd : ℚ) - (ov : ℚ)))
    (hlast : 0 < index → ∀ c, acc.getLast? = some c →
      min (((index : ℚ) - 1) * ((cd : ℚ) - (ov : ℚ)) + (cd : ℚ)) duration ≤
        c.end_time)
    (hds : duration ≤ start_time) (hidx : 0 < index) :
    acc ≠ [] ∧
    (∀ (i : ℕ) (c : Chunk), acc[i]? = some c →
      c.index = i ∧ c.start_time = (i : ℚ) * ((cd : ℚ) - (ov : ℚ)) ∧
      c.overlap_start = (if 0 < i then (ov : ℚ) else 0) ∧
      (mc : ℚ) ≤ c.end_time - c.start_time ∧ c.end_time ≤ duration) ∧
    (∀ c, acc.getLast? = some c → c.end_time = duration) := by
  have hne : acc ≠ [] := by
    intro h
    rw [h] at hlen
    simp at hlen
    omega
  refine ⟨hne, hinv, ?_⟩
  intro c hc
  have hcpos : acc[acc.length - 1]? = some c := by
    rw [← List.getLast?_eq_getElem?]
    exact hc
  have hle : c.end_time ≤ duration := (hinv (acc.length - 1) c hcpos).2.2.2.2
  have hmin := hlast hidx c hc
  have hkey : duration ≤ ((index : ℚ) - 1) * ((cd : ℚ) - (ov : ℚ)) + (cd : ℚ) := by
    have hovq : (0 : ℚ) ≤ (ov : ℚ) := by exact_mod_cast hov0
    have halg : ((index : ℚ) - 1) * ((cd : ℚ) - (ov : ℚ)) + (cd : ℚ) =
        start_time + (ov : ℚ) := by
      rw [hstart]
      ring
    rw [halg]
    linarith
  rw [min_eq_right hkey] at hmin
  linarith

/-- Invariant preservation through the planner loop: starting from a
well-formed prefix with enough fuel, `calcLoop` returns a nonempty plan
whose chunks are dense, arithmetically spaced, at least `min_chunk` long,
bounded by `duration`, and whose last chunk ends exactly at `duration`. -/
theorem calcLoop_spec (cd ov mc : ℤ) (duration : ℚ)
    (hov0 : 0 ≤ ov) (hovcd : ov < cd) (hmccd : mc ≤ cd)
    (hdcd : (cd : ℚ) < duration) :
    ∀ (fuel : ℕ) (start_time : ℚ) (index : ℕ) (acc : List Chunk),
      acc.length = index →
      (∀ (i : ℕ) (c : Chunk), acc[i]? = some c →
        c.index = i ∧ c.start_time = (i : ℚ) * ((cd : ℚ) - (ov : ℚ)) ∧
        c.overlap_start = (if 0 < i then (ov : ℚ) else 0) ∧
        (mc : ℚ) ≤ c.end_time - c.start_time ∧ c.end_time ≤ duration) →
      start_time = (index : ℚ) * ((cd : ℚ) - (ov : ℚ)) →
      (0 < index → ∀ c, acc.getLast? = some c →
        min (((index : ℚ) - 1) * ((cd : ℚ) - (ov : ℚ)) + (cd : ℚ)) duration ≤
          c.end_time) →
      duration - start_time ≤ (fuel : ℚ) * ((cd : ℚ) - (ov : ℚ)) →
      (start_time < duration ∨ 0 < index) →
      (calcLoop cd ov mc duration fuel start_time index acc ≠ [] ∧
       (∀ (i : ℕ) (c : Chunk),
         (calcLoop cd ov mc duration fuel start_time index acc)[i]? = some c →
         c.index = i ∧ c.start_time = (i : ℚ) * ((cd : ℚ) - (ov : ℚ)) ∧
         c.overlap_start = (if 0 < i then (ov : ℚ) else 0) ∧
         (mc : ℚ) ≤ c.end_time - c.start_time ∧ c.end_time ≤ duration) ∧
       (∀ c, (calcLoop cd ov mc duration fuel start_time index acc).getLast? =
          some c → c.end_time = duration)) := by
  intro fuel
  induction fuel with
  | zero =>
    intro start_time index acc hlen hinv hstart hlast hfuel hor
    have hds : duration ≤ start_time := by
      have h0 : duration - start_time ≤ 0 := by
        simpa using hfuel
      linarith
    have hidx : 0 < index := by
      rcases hor with h | h
      · linarith
      · exact h
    simpa [calcLoop] using
      calcLoop_exit cd ov mc duration hov0 index start_time acc hlen hinv
        hstart hlast hds hidx
  | succ fuel ih =>
    intro start_time index acc hlen hinv hstart hlast hfuel hor
    by_cases hlt : start_time < duration
    · by_cases hbr : duration - start_time < (mc : ℚ) ∧ 0 < index
      · -- the break: extend the last chunk to `duration` and stop
        have hrun : calcLoop cd ov mc duration (fuel + 1) start_time index acc =
            extendLast acc duration := by
          simp only [calcLoop, if_pos hlt, if_pos hbr]
        have hne : acc ≠ [] := by
          intro h
          rw [h] at hlen
          simp at hlen
          omega
        have hlastSome := List.getLast?_eq_getLast acc hne
        set last := acc.getLast hne with hlastdef
        have hext : extendLast acc duration =
            acc.dropLast ++ [{ last with end_time := duration }] := by
          rw [extendLast, hlastSome]
        have hlastpos : acc[acc.length - 1]? = some last := by
          rw [← List.getLast?_eq_getElem?]
          exact hlastSome
        have hlastprops := hinv (acc.length - 1) last hlastpos
        rw [hrun, hext]
        have hlendl : acc.dropLast.length = index - 1 := by
          simp [hlen]
        refine ⟨by simp, ?_, ?_⟩
        · intro i c hc
          by_cases hi : i < index - 1
          · have hcl : acc.dropLast[i]? = some c := by
              rw [List.getElem?_append] at hc
              rwa [if_pos (show i < acc.dropLast.length by omega)] at hc
            have hacc : acc[i]? = some c := by
              rw [List.dropLast_eq_take, List.getElem?_take] at hcl
              simpa [hlen, hi] using hcl
            exact hinv i c hacc
          · by_cases hieq : i = index - 1
            · have hconc : (acc.dropLast ++
                  [({ last with end_time := duration } : Chunk)])[i]? =
                  some { last with end_time := duration } := by
                rw [hieq, ← hlendl]
                exact List.getElem?_concat_length _ _
              rw [hconc] at hc
              cases hc
              have hl1 := hlastprops.1
              have hl2 := hlastprops.2.1
              have hl3 := hlastprops.2.2.1
              have hl4 := hlastprops.2.2.2.1
              have hl5 := hlastprops.2.2.2.2
              rw [hlen, ← hieq] at hl1 hl2 hl3
              refine ⟨hl1, hl2, hl3, ?_, le_refl _⟩
              simp only
              linarith
            · have hnone : (acc.dropLast ++ [{ last with end_time := duration }])[i]? = none := by
                apply List.getElem?_eq_none
                simp [hlendl]
                omega
              rw [hnone] at hc
              cases hc
        · intro c hc
          rw [List.getLast?_concat] at hc
          cases hc
          rfl
      · -- continue looping with one more chunk
        have hrun : calcLoop cd ov mc duration (fuel + 1) start_time index acc =
            calcLoop cd ov mc duration fuel
              (start_time + ((cd : ℚ) - (ov : ℚ))) (index + 1)
              (acc ++ [{ index := index
                         start_time := start_time
                         end_time := min (start_time + (cd : ℚ)) duration
                         overlap_start := if 0 < index then (ov : ℚ) else 0 }]) := by
          simp only [calcLoop, if_pos hlt, if_neg hbr]
        rw [hrun]
        have hmcq : (mc : ℚ) ≤ (cd : ℚ) := by exact_mod_cast hmccd
        have hnewlen : (mc : ℚ) ≤ min (start_time + (cd : ℚ)) duration - start_time := by
          rcases Decidable.not_and_iff_or_not.mp hbr with h | h
          · have hrem : (mc : ℚ) ≤ duration - start_time := le_of_not_lt h
            have : (mc : ℚ) + start_time ≤ min (start_time + (cd : ℚ)) duration :=
              le_min (by linarith) (by linarith)
            linarith
          · have hidx0 : index = 0 := by omega
            subst hidx0
            have hst0 : start_time = 0 := by
              simpa using hstart
            subst hst0
            have : (mc : ℚ) + 0 ≤ min (0 + (cd : ℚ)) duration :=
              le_min (by linarith) (by linarith)
            linarith
        apply ih
        · simp [hlen]
        · intro i c hc
          by_cases hi : i < index
          · have hacc : acc[i]? = some c := by
              rw [List.getElem?_append] at hc
              rwa [if_pos (show i < acc.length by omega)] at hc
            exact hinv i c hacc
          · by_cases hieq : i = index
            · have hconc : (acc ++ [({ index := index
                                       start_time := start_time
                                       end_time := min (start_time + (cd : ℚ)) duration
                                       overlap_start := if 0 < index then (ov : ℚ) else 0 } : Chunk)])[i]? =
                  some { index := index
                         start_time := start_time
                         end_time := min (start_time + (cd : ℚ)) duration
                         overlap_start := if 0 < index then (ov : ℚ) else 0 } := by
                rw [hieq, ← hlen]
                exact List.getElem?_concat_length _ _
              rw [hconc] at hc
              cases hc
              refine ⟨hieq.symm, ?_, ?_, hnewlen, min_le_right _ _⟩
              · rw [hieq]
                exact hstart
              · rw [hieq]
            · have hnone : (acc ++ [({ index := index
                                       start_time := start_time
                                       end_time := min (start_time + (cd : ℚ)) duration
                                       overlap_start := if 0 < index then (ov : ℚ) else 0 } : Chunk)])[i]? = none := by
                apply List.getElem?_eq_none
                simp [hlen]
                omega
              rw [hnone] at hc
              cases hc
        · push_cast
          rw [hstart]
          ring
        · intro _ c hc
          rw [List.getLast?_concat] at hc
          cases hc
          have : ((index : ℚ) + 1 - 1) * ((cd : ℚ) - (ov : ℚ)) + (cd : ℚ) =
              start_time + (cd : ℚ) := by
            rw [hstart]
            ring
          push_cast
          rw [this]
        · have hcast : ((fuel : ℚ) + 1) * ((cd : ℚ) - (ov : ℚ)) =
              (fuel : ℚ) * ((cd : ℚ) - (ov : ℚ)) + ((cd : ℚ) - (ov : ℚ)) := by
            ring
          have hf : duration - start_time ≤ ((fuel : ℚ) + 1) * ((cd : ℚ) - (ov : ℚ)) := by
            have := hfuel
            push_cast at this
            linarith
          rw [hcast] at hf
          linarith
        · right
          omega
    · have hrun : calcLoop cd ov mc duration (fuel + 1) start_time index acc = acc := by
        simp only [calcLoop, if_neg hlt]
      have hds : duration ≤ start_time := le_of_not_lt hlt
      have hidx : 0 < index := by
        rcases hor with h | h
        · exact absurd h hlt
        · exact h
      rw [hrun]
      exact calcLoop_exit cd ov mc duration hov0 index start_time acc hlen hinv
        hstart hlast hds hidx


/-- C4 counterexample: parameters `cd=300, ov=10, mc=601` satisfy the
claim's constraints `0 ≤ ov < cd, mc > 0`, the duration 600 is not
smaller than `cd`, yet the planner returns the single chunk `[0,600]`,
whose length 600 is below `min_chunk` — the remainder-absorption step can
leave a chunk shorter than `min_chunk` whenever `mc > cd`. -/
theorem calculate_chunks_min_chunk_cex :
    (0 : ℤ) ≤ 10 ∧ (10 : ℤ) < 300 ∧ (0 : ℤ) < 601 ∧
    calculate_chunks 300 10 601 600 =
      [{ index := 0, start_time := 0, end_time := 600, overlap_start := 0 }] ∧
    ¬((600 : ℚ) < 300) ∧ ((600 : ℚ) - 0 < 601) := by
  decide

/-- C4 amended: for `0 ≤ ov < cd`, `0 < mc ≤ cd` and `duration ≥ 0`, the
plan of `calculate_chunks` covers `[0, duration]` when `duration > 0`
(first start 0, last end `duration`, nonempty), has dense indices
`0..N-1`, consecutive start times exactly `cd - ov` apart, overlap_start
`ov` for every index past 0 and `0` at index 0, and — when `duration` is
not smaller than `cd` — every chunk at least `mc` long. -/
theorem calculate_chunks_spec (cd ov mc : ℤ) (duration : ℚ)
    (hov0 : 0 ≤ ov) (hovcd : ov < cd) (hmc0 : 0 < mc) (hmccd : mc ≤ cd)
    (hd0 : 0 ≤ duration) :
    (0 < duration → calculate_chunks cd ov mc duration ≠ [] ∧
      (calculate_chunks cd ov mc duration).head?.map Chunk.start_time =
        some 0 ∧
      (calculate_chunks cd ov mc duration).getLast?.map Chunk.end_time =
        some duration) ∧
    (∀ (i : ℕ) (c : Chunk), (calculate_chunks cd ov mc duration)[i]? = some c →
      c.index = i ∧ c.overlap_start = (if 0 < i then (ov : ℚ) else 0)) ∧
    (∀ (i : ℕ) (c c' : Chunk),
      (calculate_chunks cd ov mc duration)[i]? = some c →
      (calculate_chunks cd ov mc duration)[i + 1]? = some c' →
      c'.start_time = c.start_time + ((cd : ℚ) - (ov : ℚ))) ∧
    ((cd : ℚ) ≤ duration → ∀ c ∈ calculate_chunks cd ov mc duration,
      (mc : ℚ) ≤ c.end_time - c.start_time) := by
  have hcdq : (0 : ℚ) < (cd : ℚ) := by
    exact_mod_cast lt_of_le_of_lt hov0 hovcd
  have hmcq : (mc : ℚ) ≤ (cd : ℚ) := by exact_mod_cast hmccd
  by_cases hdz : duration ≤ 0
  · have hnil : calculate_chunks cd ov mc duration = [] := by
      rw [calculate_chunks, if_pos hdz]
    rw [hnil]
    refine ⟨fun h => absurd h (by linarith), ?_, ?_, ?_⟩
    · intro i c hc
      simp at hc
    · intro i c c' hc _
      simp at hc
    · intro hcd c hc
      simp at hc
  · push_neg at hdz
    by_cases hcd : duration ≤ (cd : ℚ)
    · have hone : calculate_chunks cd ov mc duration =
          [{ index := 0, start_time := 0, end_time := duration,
             overlap_start := 0 }] := by
        rw [calculate_chunks, if_neg (not_le.mpr hdz), if_pos hcd]
      rw [hone]
      refine ⟨fun _ => ⟨by simp, by simp, by simp [List.getLast?]⟩, ?_, ?_, ?_⟩
      · intro i c hc
        cases i with
        | zero =>
          simp only [List.getElem?_cons_zero] at hc
          cases hc
          exact ⟨rfl, rfl⟩
        | succ n =>
          simp at hc
      · intro i c c' hc hc'
        cases i with
        | zero => simp at hc'
        | succ n => simp at hc
      · intro hcdle c hcm
        simp only [List.mem_singleton] at hcm
        subst hcm
        have hdeq : duration = (cd : ℚ) := le_antisymm hcd hcdle
        simp only
        rw [hdeq]
        linarith
    · push_neg at hcd
      have hloop : calculate_chunks cd ov mc duration =
          calcLoop cd ov mc duration (⌈duration⌉.toNat + 1) 0 0 [] := by
        rw [calculate_chunks, if_neg (not_le.mpr hdz), if_neg (not_le.mpr hcd)]
      have hstep1 : (1 : ℚ) ≤ (cd : ℚ) - (ov : ℚ) := by
        have hcast : ((ov : ℚ) + 1) ≤ (cd : ℚ) := by
          exact_mod_cast Int.lt_iff_add_one_le.mp hovcd
        linarith
      have hfuel : duration - 0 ≤
          ((⌈duration⌉.toNat + 1 : ℕ) : ℚ) * ((cd : ℚ) - (ov : ℚ)) := by
        have h2 : duration ≤ ((⌈duration⌉ : ℤ) : ℚ) := Int.le_ceil duration
        have h3 : (⌈duration⌉ : ℤ) ≤ ((⌈duration⌉.toNat : ℕ) : ℤ) :=
          Int.self_le_toNat _
        have h4 : ((⌈duration⌉ : ℤ) : ℚ) ≤ (((⌈duration⌉.toNat : ℕ) : ℤ) : ℚ) := by
          exact_mod_cast h3
        have h4b : (((⌈duration⌉.toNat : ℕ) : ℤ) : ℚ) =
            ((⌈duration⌉.toNat : ℕ) : ℚ) := by
          push_cast
          ring
        have h1 : duration ≤ ((⌈duration⌉.toNat : ℕ) : ℚ) := by
          rw [← h4b]
          exact le_trans h2 h4
        have h5 : ((⌈duration⌉.toNat + 1 : ℕ) : ℚ) =
            ((⌈duration⌉.toNat : ℕ) : ℚ) + 1 := by
          push_cast
          ring
        have h6 : (0 : ℚ) ≤ ((⌈duration⌉.toNat + 1 : ℕ) : ℚ) := by positivity
        have h7 : ((⌈duration⌉.toNat + 1 : ℕ) : ℚ) * 1 ≤
            ((⌈duration⌉.toNat + 1 : ℕ) : ℚ) * ((cd : ℚ) - (ov : ℚ)) :=
          mul_le_mul_of_nonneg_left hstep1 h6
        rw [mul_one, h5] at h7
        rw [h5]
        linarith
      have hmain := calcLoop_spec cd ov mc duration hov0 hovcd hmccd hcd
        (⌈duration⌉.toNat + 1) 0 0 [] rfl
        (by intro i c hc; simp at hc)
        (by simp)
        (fun h => absurd h (by omega))
        hfuel
        (Or.inl (by linarith))
      rw [hloop]
      obtain ⟨hne, hprops, hlastd⟩ := hmain
      refine ⟨fun _ => ⟨hne, ?_, ?_⟩, ?_, ?_, ?_⟩
      · obtain ⟨b, L, hbl⟩ := List.exists_cons_of_ne_nil hne
        have h0 : (calcLoop cd ov mc duration (⌈duration⌉.toNat + 1) 0 0 [])[0]? =
            some b := by
          rw [hbl]
          simp
        have hb := (hprops 0 b h0).2.1
        rw [List.head?_eq_getElem?, h0]
        simp [hb]
      · have hlastSome := List.getLast?_eq_getLast
          (calcLoop cd ov mc duration (⌈duration⌉.toNat + 1) 0 0 []) hne
        rw [hlastSome]
        simp [hlastd _ hlastSome]
      · intro i c hc
        exact ⟨(hprops i c hc).1, (hprops i c hc).2.2.1⟩
      · intro i c c' hc hc'
        have h1 := (hprops i c hc).2.1
        have h2 := (hprops (i + 1) c' hc').2.1
        rw [h1, h2]
        push_cast
        ring
      · intro _ c hcm
        obtain ⟨n, hn⟩ := List.mem_iff_getElem?.mp hcm
        exact (hprops n c hn).2.2.2.1


/-- C4 witness: the amended planner theorem at
`cd=300, ov=10, mc=30, duration=600` — nonempty plan starting at 0 and
ending at 600, and the second chunk `[290,600]` at least 30 long. -/
theorem calculate_chunks_spec_witness :
    calculate_chunks 300 10 30 600 ≠ [] ∧
    (calculate_chunks 300 10 30 600).head?.map Chunk.start_time = some 0 ∧
    (calculate_chunks 300 10 30 600).getLast?.map Chunk.end_time = some 600 ∧
    ((30 : ℤ) : ℚ) ≤
      ({ index := 1, start_time := 290, end_time := 600,
         overlap_start := 10 } : Chunk).end_time -
        ({ index := 1, start_time := 290, end_time := 600,
           overlap_start := 10 } : Chunk).start_time := by
  have h := calculate_chunks_spec 300 10 30 600 (by decide) (by decide)
    (by decide) (by decide) (by decide)
  obtain ⟨h1, _, _, h4⟩ := h
  obtain ⟨ha, hb, hc⟩ := h1 (by decide)
  exact ⟨ha, hb, hc, h4 (by decide) _ (by decide)⟩

/-- C8 witness: the cleanup theorem on a four-record store — an old
`COMPLETED` record (cleaned), an old `CANCELLED` record (kept), a young
`FAILED` record (kept), and an old unparseable record (kept). -/
theorem cleanup_old_jobs_spec_witness :
    cleanup_old_jobs
        [("a", { mtime := 0, content := Except.ok { id := "a", status := JobStatus.completed } }),
         ("b", { mtime := 0, content := Except.ok { id := "b", status := JobStatus.cancelled } }),
         ("c", { mtime := 95, content := Except.ok { id := "c", status := JobStatus.failed } }),
         ("d", { mtime := 0, content := Except.error "torn" })] 100 10 true =
      (([("a", { mtime := 0, content := Except.ok { id := "a", status := JobStatus.completed } }),
         ("b", { mtime := 0, content := Except.ok { id := "b", status := JobStatus.cancelled } }),
         ("c", { mtime := 95, content := Except.ok { id := "c", status := JobStatus.failed } }),
         ("d", { mtime := 0, content := Except.error "torn" })].filter
           (shouldClean 100 10)).length,
       [("a", { mtime := 0, content := Except.ok { id := "a", status := JobStatus.completed } }),
        ("b", { mtime := 0, content := Except.ok { id := "b", status := JobStatus.cancelled } }),
        ("c", { mtime := 95, content := Except.ok { id := "c", status := JobStatus.failed } }),
        ("d", { mtime := 0, content := Except.error "torn" })]) ∧
    cleanup_old_jobs
        [("a", { mtime := 0, content := Except.ok { id := "a", status := JobStatus.completed } }),
         ("b", { mtime := 0, content := Except.ok { id := "b", status := JobStatus.cancelled } }),
         ("c", { mtime := 95, content := Except.ok { id := "c", status := JobStatus.failed } }),
         ("d", { mtime := 0, content := Except.error "torn" })] 100 10 false =
      (([("a", { mtime := 0, content := Except.ok { id := "a", status := JobStatus.completed } }),
         ("b", { mtime := 0, content := Except.ok { id := "b", status := JobStatus.cancelled } }),
         ("c", { mtime := 95, content := Except.ok { id := "c", status := JobStatus.failed } }),
         ("d", { mtime := 0, content := Except.error "torn" })].filter
           (shouldClean 100 10)).length,
       [("a", { mtime := 0, content := Except.ok { id := "a", status := JobStatus.completed } }),
        ("b", { mtime := 0, content := Except.ok { id := "b", status := JobStatus.cancelled } }),
        ("c", { mtime := 95, content := Except.ok { id := "c", status := JobStatus.failed } }),
        ("d", { mtime := 0, content := Except.error "torn" })].filter
          fun e => !shouldClean 100 10 e) :=
  cleanup_old_jobs_spec
    [("a", { mtime := 0, content := Except.ok { id := "a", status := JobStatus.completed } }),
     ("b", { mtime := 0, content := Except.ok { id := "b", status := JobStatus.cancelled } }),
     ("c", { mtime := 95, content := Except.ok { id := "c", status := JobStatus.failed } }),
     ("d", { mtime := 0, content := Except.error "torn" })] 100 10
    (by decide)
    (by
      intro e he j hj
      simp only [List.mem_cons, List.not_mem_nil, or_false] at he
      rcases he with rfl | rfl | rfl | rfl <;> cases hj <;> rfl)

end Bout
